import Mathlib

/-!
Verification of the static gallery generator (`generate_gallery.py`).

The script scans a flat `images/` directory, reads metadata and keyword
tags per file via exiftool, groups images by tag into an insertion-ordered
mapping, and renders an index page, one listing page per tag, and one
detail page per (image, tag) pair with positional prev/next navigation;
it also copies originals and generates thumbnails.

Embedding conventions:
- JSON values parsed from the metadata tool's output are modelled by `JVal`
  (numbers as integers; the exiftool fields used here are strings/lists).
- The external metadata tool is a parameter
  `tool : String → Option (List (String × JVal))`: given the file path it
  returns the fields of the first object of its parsed JSON output, or
  `none` when the invocation produced unparseable output (in which case
  `json.loads(result.stdout)[0]` raises, aborting the run).
- The slugification transform (external `slugify` library) is a parameter
  `slugify : String → String`.
- The Jinja template rendering is external; each render function is
  modelled as producing the list of (output path, template context) pairs
  it writes, in write order.
- The filesystem directory listing is a parameter `listing : List String`
  (the result of `os.listdir`, in arbitrary order).
-/

/-- JSON value as produced by parsing the metadata tool's output.
Numbers are modelled as integers (the fields read here are strings or
lists of strings). -/
inductive JVal where
  | null : JVal
  | b (x : Bool) : JVal
  | i (x : Int) : JVal
  | s (x : String) : JVal
  | arr (xs : List JVal) : JVal
  | obj (fields : List (String × JVal)) : JVal

/-- The check `k is not None` on a JSON-derived keyword element. -/
def isNotNull : JVal → Bool
  | JVal.null => false
  | _ => true

/-- Python `str()` applied to a JSON-derived value, as used in
`[str(k) for k in keywords if k is not None]`. Scalars follow Python
exactly; the `repr`-quoting of nested containers is abstracted (exiftool
keyword entries are scalars). -/
def pyStr : JVal → String
  | JVal.null => "None"
  | JVal.b true => "True"
  | JVal.b false => "False"
  | JVal.i n => toString n
  | JVal.s x => x
  | JVal.arr _ => "<list>"
  | JVal.obj _ => "<dict>"

/-- Python truthiness of a JSON-derived value, as used by the
`if data.get(field)` guard of the metadata dict comprehension
(`None`, `False`, `0`, `""`, `[]`, `{}` are falsy). -/
def truthy : JVal → Bool
  | JVal.null => false
  | JVal.b x => x
  | JVal.i n => decide (n ≠ 0)
  | JVal.s x => decide (x ≠ "")
  | JVal.arr xs => !xs.isEmpty
  | JVal.obj fs => !fs.isEmpty

/-- Python `data.get(key)` on the parsed JSON object (fields of the first
array element of exiftool's output); `none` when the key is absent. -/
def jget (data : List (String × JVal)) (key : String) : Option JVal :=
  (data.find? (fun p => p.1 == key)).map Prod.snd

/-- Source-directory constant `IMAGES_DIR = "images"`. -/
def IMAGES_DIR : String := "images"

/-- Output-directory constant `OUTPUT_DIR = "output"`. -/
def OUTPUT_DIR : String := "output"

/-- The `METADATA_FIELDS` dict: display field name to exiftool attribute,
in insertion (iteration) order. -/
def METADATA_FIELDS : List (String × String) :=
  [("City", "City"), ("State", "Province-State"), ("Date", "DateTimeOriginal")]

/-- Python `os.path.join(a, b)` for a non-empty directory `a` without a
trailing separator and a relative component `b`, the only shape used by
the script. -/
def os_path_join (a b : String) : String := a ++ "/" ++ b

/-- Lexicographic comparison of two character sequences by code point,
the order Python's `sorted` uses on strings. -/
def charListLe : List Char → List Char → Bool
  | [], _ => true
  | _ :: _, [] => false
  | a :: as, b :: bs => if a < b then true else if a = b then charListLe as bs else false

/-- Python string comparison `a <= b` (lexicographic by code point). -/
def pyLe (a b : String) : Prop := charListLe a.data b.data = true

instance : DecidableRel pyLe :=
  fun a b => inferInstanceAs (Decidable (charListLe a.data b.data = true))

instance : IsTotal String pyLe := by
  constructor
  intro a b
  show charListLe a.data b.data = true ∨ charListLe b.data a.data = true
  generalize a.data = as
  generalize b.data = bs
  induction as generalizing bs with
  | nil => left; rfl
  | cons x xs ih =>
    cases bs with
    | nil => right; rfl
    | cons y ys =>
      by_cases hxy : x < y
      · left; simp [charListLe, hxy]
      · by_cases heq : x = y
        · subst heq
          rcases ih ys with h | h
          · left; simp [charListLe, hxy, h]
          · right; simp [charListLe, hxy, h]
        · have hyx : y < x := lt_of_le_of_ne (not_lt.mp hxy) (Ne.symm heq)
          right; simp [charListLe, hyx]

instance : IsTrans String pyLe := by
  constructor
  have key : ∀ as bs cs : List Char, charListLe as bs = true →
      charListLe bs cs = true → charListLe as cs = true := by
    intro as
    induction as with
    | nil => intro bs cs _ _; rfl
    | cons x xs ih =>
      intro bs cs hab hbc
      cases bs with
      | nil => simp [charListLe] at hab
      | cons y ys =>
        cases cs with
        | nil => simp [charListLe] at hbc
        | cons z zs =>
          by_cases hxy : x < y
          · by_cases hyz : y < z
            · simp [charListLe, lt_trans hxy hyz]
            · by_cases hyz2 : y = z
              · subst hyz2; simp [charListLe, hxy]
              · simp [charListLe, hyz, hyz2] at hbc
          · by_cases hxy2 : x = y
            · subst hxy2
              simp [charListLe, lt_irrefl] at hab
              by_cases hxz : x < z
              · simp [charListLe, hxz]
              · by_cases hxz2 : x = z
                · subst hxz2
                  simp [charListLe, lt_irrefl] at hbc
                  simp [charListLe, lt_irrefl, ih ys zs hab hbc]
                · simp [charListLe, hxz, hxz2] at hbc
            · simp [charListLe, hxy, hxy2] at hab
  intro a b c hab hbc
  exact key a.data b.data c.data hab hbc

instance : IsAntisymm String pyLe := by
  constructor
  have key : ∀ as bs : List Char, charListLe as bs = true →
      charListLe bs as = true → as = bs := by
    intro as
    induction as with
    | nil =>
      intro bs _ hba
      cases bs with
      | nil => rfl
      | cons y ys => simp [charListLe] at hba
    | cons x xs ih =>
      intro bs hab hba
      cases bs with
      | nil => simp [charListLe] at hab
      | cons y ys =>
        by_cases hxy : x < y
        · simp [charListLe, asymm hxy, ne_of_gt hxy] at hba
        · by_cases hxy2 : x = y
          · subst hxy2
            simp [charListLe, lt_irrefl] at hab hba
            rw [ih ys hab hba]
          · simp [charListLe, hxy, hxy2] at hab
  intro a b hab hba
  cases a with
  | mk as =>
    cases b with
    | mk bs => exact congrArg String.mk (key as bs hab hba)

/-- Python `s.lower()` restricted to its ASCII effect, matching
`String.toLower` (the extension suffixes compared against are ASCII). -/
def py_lower (s : String) : String := String.mk (s.data.map Char.toLower)

/-- Python `s.endswith(post)` for one suffix. -/
def str_endsWith (s post : String) : Bool := post.data.isSuffixOf s.data

/-- Root part of Python `os.path.splitext(s)[0]` for a plain filename
(no path separator, the shape produced by `os.listdir`): strip from the
last dot on, unless every character before that dot is itself a dot. -/
def splitext_root (s : String) : String :=
  let cs := s.toList
  let dots := (List.range cs.length).filter (fun idx => cs.getD idx ' ' == '.')
  match dots.getLast? with
  | none => s
  | some d =>
      if (List.range d).all (fun j => cs.getD j ' ' == '.') then s
      else String.mk (cs.take d)

/-- The extension filter `filename.lower().endswith((".jpg", ".jpeg", ".png"))`
shared by the scan, the copy step and the thumbnail step. -/
def isImageFile (filename : String) : Bool :=
  let lower := py_lower filename
  str_endsWith lower ".jpg" || str_endsWith lower ".jpeg" || str_endsWith lower ".png"

/-- The function `get_metadata(filepath)`: invoke the tool, take the first
object of its parsed JSON output, restrict it to `METADATA_FIELDS` entries
with truthy values, and coerce the `Keywords` attribute to a list of tag
strings. Unparseable tool output (`tool filepath = none`) is the uncaught
`json.loads` exception, modelled as `Except.error ()`. -/
def get_metadata (tool : String → Option (List (String × JVal))) (filepath : String) :
    Except Unit (List (String × JVal) × List String) :=
  match tool filepath with
  | none => Except.error ()
  | some data =>
      let metadata := METADATA_FIELDS.filterMap (fun kf =>
        match jget data kf.2 with
        | some v => if truthy v then some (kf.1, v) else none
        | none => none)
      let keywords :=
        match jget data "Keywords" with
        | some (JVal.s x) => [x]
        | some (JVal.arr ks) => (ks.filter isNotNull).map pyStr
        | _ => []
      Except.ok (metadata, keywords)

/-- The `image_data` dict built by `collect_images` for one file. -/
structure ImageData where
  filename : String
  slug : String
  metadata : List (String × JVal)

/-- The `tag_to_images` defaultdict: an insertion-ordered association list
from tag string to that tag's ordered image sequence. -/
abbrev Catalog := List (String × List ImageData)

/-- Dictionary lookup on the catalog (`tag_to_images[t]` read access). -/
def catalogFind : Catalog → String → Option (List ImageData)
  | [], _ => none
  | (k, v) :: rest, t => if k = t then some v else catalogFind rest t

/-- One `tag_to_images[str(keyword)].append(image_data)` step of the
defaultdict: append to the existing key's list, or insert a new key with a
one-element list at the end (dict insertion order). -/
def addToTag : Catalog → String → ImageData → Catalog
  | [], t, img => [(t, [img])]
  | (k, v) :: rest, t, img =>
      if k = t then (k, v ++ [img]) :: rest
      else (k, v) :: addToTag rest t img

/-- The sorted-and-filtered scan order of `collect_images`:
`sorted(os.listdir(IMAGES_DIR))` with non-image extensions skipped. -/
def scan_files (listing : List String) : List String :=
  (List.insertionSort pyLe listing).filter isImageFile

/-- The body of the `collect_images` loop over the scanned filenames:
read metadata, build the image record with its slug, and append it to the
list of every keyword it carries, in keyword order. A metadata failure
propagates and aborts the whole construction. -/
def collect_go (slugify : String → String)
    (tool : String → Option (List (String × JVal))) :
    Catalog → List String → Except Unit Catalog
  | acc, [] => Except.ok acc
  | acc, filename :: rest =>
      match get_metadata tool (os_path_join IMAGES_DIR filename) with
      | Except.error e => Except.error e
      | Except.ok (metadata, keywords) =>
          let slug := slugify (splitext_root filename)
          let image_data : ImageData :=
            { filename := filename, slug := slug, metadata := metadata }
          collect_go slugify tool
            (keywords.foldl (fun m keyword => addToTag m keyword image_data) acc)
            rest

/-- The function `collect_images()`: scan the directory in sorted order,
filter by extension, and group image records by tag. -/
def collect_images (slugify : String → String)
    (tool : String → Option (List (String × JVal)))
    (listing : List String) : Except Unit Catalog :=
  collect_go slugify tool [] (scan_files listing)

/-- One entry of the index page's `tags` context. -/
structure IndexEntry where
  label : String
  slug : String
  count : Nat

/-- Ordering used by `sorted(tag_to_images.items())`: Python compares the
tuples componentwise starting with the tag string; the dict's keys are
distinct, so the key comparison decides. -/
def itemLe (a b : String × List ImageData) : Prop := pyLe a.1 b.1

instance : DecidableRel itemLe :=
  fun a b => inferInstanceAs (Decidable (pyLe a.1 b.1))

instance : IsTotal (String × List ImageData) itemLe :=
  ⟨fun a b => @IsTotal.total String pyLe _ a.1 b.1⟩

instance : IsTrans (String × List ImageData) itemLe :=
  ⟨fun a b c h1 h2 => @IsTrans.trans String pyLe _ a.1 b.1 c.1 h1 h2⟩

/-- The expression `sorted(tag_to_images.items())` in `render_index_page`. -/
def sorted_items (m : Catalog) : Catalog := List.insertionSort itemLe m

/-- The `tags` list comprehension of `render_index_page`. -/
def index_tags (slugify : String → String) (m : Catalog) : List IndexEntry :=
  (sorted_items m).map (fun p =>
    { label := p.1, slug := slugify p.1, count := p.2.length })

/-- The function `render_index_page`: writes one file, `index.html` under
the output directory, with the sorted `tags` context. -/
def render_index_page (slugify : String → String) (m : Catalog) :
    String × List IndexEntry :=
  (os_path_join OUTPUT_DIR "index.html", index_tags slugify m)

/-- Output path and template context of one tag listing page. -/
structure TagPage where
  output_file : String
  tag : String
  images : List ImageData

/-- The function `render_tag_pages`: one page per catalog entry, in dict
iteration order, at `{slugify(tag)}.html` with the tag's full ordered image
sequence as context. -/
def render_tag_pages (slugify : String → String) (m : Catalog) : List TagPage :=
  m.map (fun p =>
    { output_file := os_path_join OUTPUT_DIR (slugify p.1 ++ ".html")
      tag := p.1
      images := p.2 })

/-- Output path and template context of one per-image-per-tag detail page. -/
structure DetailPage where
  output_file : String
  filename : String
  metadata : List (String × JVal)
  prev_slug : Option String
  next_slug : Option String
  tag_slug : String

/-- The inner loop of `render_image_pages_per_tag` for one tag: enumerate
the tag's image sequence and compute positional prev/next slugs
(`images[index - 1]["slug"] if index > 0 else None`, and
`images[index + 1]["slug"] if index < total - 1 else None`). -/
def detailPagesForTag (slugify : String → String) (tag : String)
    (images : List ImageData) : List DetailPage :=
  let tag_slug := slugify tag
  let total := images.length
  images.enum.map (fun p =>
    { output_file := os_path_join OUTPUT_DIR (p.2.slug ++ "-" ++ tag_slug ++ ".html")
      filename := p.2.filename
      metadata := p.2.metadata
      prev_slug := if p.1 > 0 then (images[p.1 - 1]?).map ImageData.slug else none
      next_slug := if p.1 < total - 1 then (images[p.1 + 1]?).map ImageData.slug else none
      tag_slug := tag_slug })

/-- The function `render_image_pages_per_tag`: all detail pages, tag by tag
in dict iteration order. -/
def render_image_pages_per_tag (slugify : String → String) (m : Catalog) :
    List DetailPage :=
  m.flatMap (fun p => detailPagesForTag slugify p.1 p.2)

/-- The function `copy_images`: the list of (source, destination) copies it
performs, iterating the raw directory listing filtered by the shared
extension test. -/
def copy_images (listing : List String) : List (String × String) :=
  (listing.filter isImageFile).map (fun f =>
    (os_path_join IMAGES_DIR f, os_path_join (os_path_join OUTPUT_DIR "images") f))

/-- The function `generate_thumbnails`: the list of (input, output) pairs
of its ImageMagick invocations, iterating the raw directory listing
filtered by the shared extension test. -/
def generate_thumbnails (listing : List String) : List (String × String) :=
  (listing.filter isImageFile).map (fun f =>
    (os_path_join IMAGES_DIR f, os_path_join (os_path_join OUTPUT_DIR "thumbs") f))

/-- The tag list `get_metadata` yields for a scanned filename, assuming the
tool invocation succeeds (the only case in which a catalog is produced). -/
def okKeywords (tool : String → Option (List (String × JVal))) (filename : String) :
    List String :=
  match get_metadata tool (os_path_join IMAGES_DIR filename) with
  | Except.ok md => md.2
  | Except.error _ => []

/-- The image record `collect_images` builds for a scanned filename,
assuming the tool invocation succeeds. -/
def okRecord (slugify : String → String)
    (tool : String → Option (List (String × JVal))) (filename : String) : ImageData :=
  match get_metadata tool (os_path_join IMAGES_DIR filename) with
  | Except.ok md =>
      { filename := filename, slug := slugify (splitext_root filename), metadata := md.1 }
  | Except.error _ =>
      { filename := filename, slug := slugify (splitext_root filename), metadata := [] }

/-- The image sequence a tag accumulates over a list of scanned filenames:
each file contributes its record once per occurrence of the tag among its
keywords, in scan order. -/
def tagSeq (slugify : String → String)
    (tool : String → Option (List (String × JVal))) (t : String)
    (files : List String) : List ImageData :=
  files.flatMap (fun f =>
    ((okKeywords tool f).filter (fun k => k == t)).map (fun _ => okRecord slugify tool f))

/-- Append a contribution to an optional accumulated list: a defaultdict
entry stays absent when nothing is appended, and otherwise holds the
previously accumulated list (empty if the key was fresh) followed by the
contribution. -/
def optApp (o : Option (List ImageData)) (l : List ImageData) :
    Option (List ImageData) :=
  if l.isEmpty then o else some (o.getD [] ++ l)

/-- Modelled from the spec (keyword coercion policy of 4.1, for the
refinement statement of the coercion claim): a single string becomes a
one-element list; a list is coerced elementwise to string form with null
elements dropped; anything else yields an empty tag list. -/
def spec_keyword_coercion : Option JVal → List String
  | some (JVal.s x) => [x]
  | some (JVal.arr ks) => (ks.filter isNotNull).map pyStr
  | _ => []

/-- Example metadata tool: two tagged images, per the worked example of the
specification (a.jpg carries X and Y, b.jpg carries X), plus an untagged
image and a file whose metadata is unparseable. -/
def demoTool : String → Option (List (String × JVal)) := fun fp =>
  if fp = "images/a.jpg" then
    some [("Keywords", JVal.arr [JVal.s "X", JVal.s "Y"]), ("City", JVal.s "Paris")]
  else if fp = "images/b.jpg" then some [("Keywords", JVal.s "X")]
  else if fp = "images/plain.png" then some [("City", JVal.s "Rome")]
  else none

/-- Example directory listing, deliberately out of sorted order and with a
non-image entry. -/
def demoListing : List String := ["b.jpg", "notes.txt", "plain.png", "a.jpg"]

/-- The image record of `a.jpg` under `demoTool` with the identity slug. -/
def demoA : ImageData :=
  { filename := "a.jpg", slug := "a", metadata := [("City", JVal.s "Paris")] }

/-- The image record of `b.jpg` under `demoTool` with the identity slug. -/
def demoB : ImageData := { filename := "b.jpg", slug := "b", metadata := [] }

/-- The catalog `collect_images` produces from the example listing. -/
def demoCatalog : Catalog := [("X", [demoA, demoB]), ("Y", [demoA])]

/-- Example metadata tool for the duplicate-keyword scenario: one image
whose keyword list names the same tag twice. -/
def dupTool : String → Option (List (String × JVal)) := fun fp =>
  if fp = "images/c.jpg" then
    some [("Keywords", JVal.arr [JVal.s "X", JVal.s "X"])]
  else none

/-- Directory listing for the duplicate-keyword scenario. -/
def dupListing : List String := ["c.jpg"]

/-- The image record of `c.jpg` under `dupTool` with the identity slug. -/
def demoC : ImageData := { filename := "c.jpg", slug := "c", metadata := [] }

/-- Appending under a key makes that key's entry grow by one element
(starting from the empty list when the key was absent). -/
theorem catalogFind_addToTag_self (m : Catalog) (t : String) (img : ImageData) :
    catalogFind (addToTag m t img) t = some ((catalogFind m t).getD [] ++ [img]) := by
  induction m with
  | nil => simp [addToTag, catalogFind]
  | cons p rest ih =>
    obtain ⟨k, v⟩ := p
    by_cases hk : k = t
    · subst hk; simp [addToTag, catalogFind]
    · simp [addToTag, catalogFind, hk, ih]

/-- Appending under a key leaves every other key's entry unchanged. -/
theorem catalogFind_addToTag_ne (m : Catalog) (t t' : String) (img : ImageData)
    (h : t' ≠ t) :
    catalogFind (addToTag m t img) t' = catalogFind m t' := by
  induction m with
  | nil => simp [addToTag, catalogFind, Ne.symm h]
  | cons p rest ih =>
    obtain ⟨k, v⟩ := p
    by_cases hk : k = t
    · subst hk; simp [addToTag, catalogFind, Ne.symm h]
    · by_cases hk2 : k = t'
      · subst hk2; simp [addToTag, catalogFind, hk]
      · simp [addToTag, catalogFind, hk, hk2, ih]

/-- Pushing one element onto an optional accumulated list commutes with
prefixing that element to a later contribution. -/
theorem optApp_push (o : Option (List ImageData)) (img : ImageData)
    (l : List ImageData) :
    optApp (some (o.getD [] ++ [img])) l = optApp o (img :: l) := by
  cases l with
  | nil => simp [optApp]
  | cons a l => simp [optApp]

/-- Accumulating two contributions in sequence equals accumulating their
concatenation. -/
theorem optApp_optApp (o : Option (List ImageData)) (a b : List ImageData) :
    optApp (optApp o a) b = optApp o (a ++ b) := by
  cases a with
  | nil => simp [optApp]
  | cons x a =>
    cases b with
    | nil => simp [optApp]
    | cons y b => simp [optApp]

/-- Effect of the keyword loop of `collect_images` on one key: the key's
entry grows by one copy of the record per occurrence of the key among the
keywords. -/
theorem catalogFind_foldl_addToTag (img : ImageData) (t : String) (ks : List String) :
    ∀ acc : Catalog,
      catalogFind (ks.foldl (fun m kw => addToTag m kw img) acc) t =
        optApp (catalogFind acc t) ((ks.filter (fun k => k == t)).map (fun _ => img)) := by
  induction ks with
  | nil => intro acc; simp [optApp]
  | cons kw ks ih =>
    intro acc
    rw [List.foldl_cons, ih]
    by_cases hkw : kw = t
    · subst hkw
      rw [catalogFind_addToTag_self, optApp_push]
      simp
    · rw [catalogFind_addToTag_ne _ _ _ _ (Ne.symm hkw)]
      simp [hkw]

/-- Characterization of the grouping loop: on success, each tag's entry in
the produced catalog is its entry in the accumulator extended by its
contributions from the processed files, in scan order. -/
theorem collect_go_find (slugify : String → String)
    (tool : String → Option (List (String × JVal))) :
    ∀ (files : List String) (acc m : Catalog),
      collect_go slugify tool acc files = Except.ok m →
      ∀ t, catalogFind m t = optApp (catalogFind acc t) (tagSeq slugify tool t files) := by
  intro files
  induction files with
  | nil =>
    intro acc m h t
    simp only [collect_go, Except.ok.injEq] at h
    subst h
    simp [tagSeq, optApp]
  | cons f fs ih =>
    intro acc m h t
    simp only [collect_go] at h
    cases hgm : get_metadata tool (os_path_join IMAGES_DIR f) with
    | error e => rw [hgm] at h; simp at h
    | ok md =>
      obtain ⟨metadata, keywords⟩ := md
      rw [hgm] at h
      have hks : okKeywords tool f = keywords := by simp [okKeywords, hgm]
      have hrec : okRecord slugify tool f =
          { filename := f, slug := slugify (splitext_root f), metadata := metadata } := by
        simp [okRecord, hgm]
      rw [ih _ m h t, catalogFind_foldl_addToTag, optApp_optApp]
      simp [tagSeq, hks, hrec]

/-- Keys after one append: unchanged when the tag is already a key, and
extended at the end when it is fresh. -/
theorem keys_addToTag (t : String) (img : ImageData) :
    ∀ m : Catalog,
      (addToTag m t img).map Prod.fst =
        if t ∈ m.map Prod.fst then m.map Prod.fst else m.map Prod.fst ++ [t] := by
  intro m
  induction m with
  | nil => simp [addToTag]
  | cons p rest ih =>
    obtain ⟨k, v⟩ := p
    by_cases hk : k = t
    · subst hk; simp [addToTag]
    · by_cases hmem : t ∈ rest.map Prod.fst
      · simp [addToTag, hk, ih, hmem, Ne.symm hk]
      · simp [addToTag, hk, ih, hmem, Ne.symm hk]

/-- One append preserves distinctness of the catalog's keys. -/
theorem nodup_keys_addToTag (t : String) (img : ImageData) (m : Catalog)
    (h : (m.map Prod.fst).Nodup) : ((addToTag m t img).map Prod.fst).Nodup := by
  rw [keys_addToTag]
  by_cases hmem : t ∈ m.map Prod.fst
  · simpa [hmem]
  · rw [if_neg hmem]
    exact List.Nodup.append h (List.nodup_singleton t) (List.disjoint_singleton.mpr hmem)

/-- The keyword loop of `collect_images` preserves distinctness of keys. -/
theorem nodup_keys_foldl (img : ImageData) (ks : List String) :
    ∀ acc : Catalog, (acc.map Prod.fst).Nodup →
      ((ks.foldl (fun m kw => addToTag m kw img) acc).map Prod.fst).Nodup := by
  induction ks with
  | nil => intro acc h; simpa using h
  | cons kw ks ih => intro acc h; exact ih _ (nodup_keys_addToTag _ _ _ h)

/-- The grouping loop preserves distinctness of the catalog's keys. -/
theorem collect_go_nodup_keys (slugify : String → String)
    (tool : String → Option (List (String × JVal))) :
    ∀ (files : List String) (acc m : Catalog),
      collect_go slugify tool acc files = Except.ok m →
      (acc.map Prod.fst).Nodup → (m.map Prod.fst).Nodup := by
  intro files
  induction files with
  | nil =>
    intro acc m h hn
    simp only [collect_go, Except.ok.injEq] at h
    subst h; exact hn
  | cons f fs ih =>
    intro acc m h hn
    simp only [collect_go] at h
    cases hgm : get_metadata tool (os_path_join IMAGES_DIR f) with
    | error e => rw [hgm] at h; simp at h
    | ok md =>
      obtain ⟨metadata, keywords⟩ := md
      rw [hgm] at h
      exact ih _ m h (nodup_keys_foldl _ _ _ hn)

/-- One append keeps every value list of the catalog non-empty. -/
theorem nonempty_values_addToTag (t : String) (img : ImageData) :
    ∀ m : Catalog, (∀ p ∈ m, p.2 ≠ []) → ∀ p ∈ addToTag m t img, p.2 ≠ [] := by
  intro m
  induction m with
  | nil =>
    intro _ p hp
    simp [addToTag] at hp
    subst hp
    simp
  | cons q rest ih =>
    obtain ⟨k, v⟩ := q
    intro h p hp
    by_cases hk : k = t
    · subst hk
      simp only [addToTag, if_true, eq_self_iff_true, List.mem_cons] at hp
      rcases hp with hp | hp
      · subst hp; simp
      · exact h p (List.mem_cons_of_mem _ hp)
    · simp only [addToTag, if_neg hk, List.mem_cons] at hp
      rcases hp with hp | hp
      · subst hp; exact h (k, v) (List.mem_cons_self _ _)
      · exact ih (fun q hq => h q (List.mem_cons_of_mem _ hq)) p hp

/-- The keyword loop keeps every value list of the catalog non-empty. -/
theorem nonempty_values_foldl (img : ImageData) (ks : List String) :
    ∀ acc : Catalog, (∀ p ∈ acc, p.2 ≠ []) →
      ∀ p ∈ ks.foldl (fun m kw => addToTag m kw img) acc, p.2 ≠ [] := by
  induction ks with
  | nil => intro acc h; simpa using h
  | cons kw ks ih => intro acc h; exact ih _ (nonempty_values_addToTag _ _ _ h)

/-- The grouping loop keeps every value list of the catalog non-empty. -/
theorem collect_go_nonempty_values (slugify : String → String)
    (tool : String → Option (List (String × JVal))) :
    ∀ (files : List String) (acc m : Catalog),
      collect_go slugify tool acc files = Except.ok m →
      (∀ p ∈ acc, p.2 ≠ []) → ∀ p ∈ m, p.2 ≠ [] := by
  intro files
  induction files with
  | nil =>
    intro acc m h hn
    simp only [collect_go, Except.ok.injEq] at h
    subst h; exact hn
  | cons f fs ih =>
    intro acc m h hn
    simp only [collect_go] at h
    cases hgm : get_metadata tool (os_path_join IMAGES_DIR f) with
    | error e => rw [hgm] at h; simp at h
    | ok md =>
      obtain ⟨metadata, keywords⟩ := md
      rw [hgm] at h
      exact ih _ m h (nonempty_values_foldl _ _ _ hn)

/-- A successful dictionary lookup exhibits a member of the catalog. -/
theorem mem_of_catalogFind (t : String) (v : List ImageData) :
    ∀ m : Catalog, catalogFind m t = some v → (t, v) ∈ m := by
  intro m
  induction m with
  | nil => intro h; simp [catalogFind] at h
  | cons p rest ih =>
    obtain ⟨k, w⟩ := p
    intro h
    by_cases hk : k = t
    · subst hk
      simp [catalogFind] at h
      subst h
      exact List.mem_cons_self _ _
    · simp [catalogFind, hk] at h
      exact List.mem_cons_of_mem _ (ih h)

/-- With distinct keys, membership determines the dictionary lookup. -/
theorem catalogFind_of_mem (t : String) (v : List ImageData) :
    ∀ m : Catalog, (m.map Prod.fst).Nodup → (t, v) ∈ m → catalogFind m t = some v := by
  intro m
  induction m with
  | nil => intro _ h; simp at h
  | cons p rest ih =>
    obtain ⟨k, w⟩ := p
    intro hn h
    rw [List.map_cons] at hn
    have hn2 := List.nodup_cons.mp hn
    rcases List.mem_cons.mp h with heq | hmem
    · injection heq with h1 h2
      subst h1; subst h2
      simp [catalogFind]
    · have hk : k ≠ t := by
        intro hkt
        subst hkt
        exact hn2.1 (by simpa using List.mem_map_of_mem Prod.fst hmem)
      simp only [catalogFind, if_neg hk]
      exact ih hn2.2 hmem

/-- The Python string order is reflexive. -/
theorem charListLe_refl : ∀ as : List Char, charListLe as as = true
  | [] => rfl
  | a :: as => by simp [charListLe, lt_irrefl, charListLe_refl as]

/-- The Python string order is reflexive. -/
theorem pyLe_refl (a : String) : pyLe a a := charListLe_refl a.data

/-- The scan order is sorted: the loop of `collect_images` visits the
directory entries in ascending filename order. -/
theorem sorted_scan_files (listing : List String) :
    List.Sorted pyLe (scan_files listing) :=
  List.Pairwise.filter isImageFile (List.sorted_insertionSort pyLe listing)

/-- A filename is scanned exactly when it is a directory entry with a
qualifying image extension. -/
theorem mem_scan_files (listing : List String) (f : String) :
    f ∈ scan_files listing ↔ f ∈ listing ∧ isImageFile f = true := by
  simp [scan_files, List.mem_filter, (List.perm_insertionSort pyLe listing).mem_iff]

/-- A duplicate-free directory listing yields a duplicate-free scan order. -/
theorem nodup_scan_files (listing : List String) (h : listing.Nodup) :
    (scan_files listing).Nodup :=
  List.Nodup.filter isImageFile ((List.perm_insertionSort pyLe listing).symm.nodup h)

/-- The record built for a scanned filename carries that filename. -/
theorem okRecord_filename (slugify : String → String)
    (tool : String → Option (List (String × JVal))) (f : String) :
    (okRecord slugify tool f).filename = f := by
  cases hgm : get_metadata tool (os_path_join IMAGES_DIR f) with
  | error e => simp [okRecord, hgm]
  | ok md => simp [okRecord, hgm]

/-- Every record in a tag's accumulated sequence is the record of one of
the scanned files. -/
theorem mem_tagSeq (slugify : String → String)
    (tool : String → Option (List (String × JVal))) (t : String)
    (files : List String) (img : ImageData)
    (h : img ∈ tagSeq slugify tool t files) :
    ∃ f ∈ files, img = okRecord slugify tool f := by
  simp only [tagSeq, List.mem_flatMap] at h
  obtain ⟨f, hf, hmem⟩ := h
  simp only [List.mem_map] at hmem
  obtain ⟨k, _, rfl⟩ := hmem
  exact ⟨f, hf, rfl⟩

/-- Over a sorted file list, the filenames along a tag's accumulated
sequence are sorted: per-tag image order is ascending filename order. -/
theorem sorted_tagSeq_filenames (slugify : String → String)
    (tool : String → Option (List (String × JVal))) (t : String) :
    ∀ files : List String, List.Sorted pyLe files →
      List.Sorted pyLe ((tagSeq slugify tool t files).map ImageData.filename) := by
  intro files
  induction files with
  | nil => intro _; simp [tagSeq]
  | cons f fs ih =>
    intro hs
    rw [List.sorted_cons] at hs
    obtain ⟨hf, hfs⟩ := hs
    simp only [tagSeq, List.flatMap_cons, List.map_append]
    rw [List.Sorted, List.pairwise_append]
    refine ⟨?_, ih hfs, ?_⟩
    · rw [List.map_map]
      apply List.pairwise_of_forall_mem_list
      intro a ha b hb
      simp only [List.mem_map, Function.comp] at ha hb
      obtain ⟨x, _, hxa⟩ := ha
      obtain ⟨y, _, hyb⟩ := hb
      rw [← hxa, ← hyb, okRecord_filename]
      exact pyLe_refl f
    · intro a ha b hb
      rw [List.map_map] at ha
      simp only [List.mem_map, Function.comp] at ha
      obtain ⟨x, _, hxa⟩ := ha
      simp only [List.mem_map] at hb
      obtain ⟨img, himg, hbimg⟩ := hb
      obtain ⟨g, hg, rfl⟩ := mem_tagSeq slugify tool t fs img himg
      rw [← hxa, ← hbimg, okRecord_filename, okRecord_filename]
      exact hf g hg

/-- Characterization of `collect_images`: on success, each tag's lookup is
absent when the tag accumulates nothing over the scanned files, and
otherwise is exactly the accumulated sequence. -/
theorem collect_images_find (slugify : String → String)
    (tool : String → Option (List (String × JVal))) (listing : List String)
    (m : Catalog) (h : collect_images slugify tool listing = Except.ok m)
    (t : String) :
    catalogFind m t = optApp none (tagSeq slugify tool t (scan_files listing)) := by
  have := collect_go_find slugify tool (scan_files listing) [] m h t
  simpa [catalogFind] using this

/-- Filtering a constant-valued list keeps everything or nothing. -/
theorem filter_const_map {β : Type} (p : ImageData → Bool) (c : ImageData) :
    ∀ l : List β,
      ((l.map (fun _ => c)).filter p) = if p c then l.map (fun _ => c) else [] := by
  intro l
  induction l with
  | nil => simp
  | cons x xs ih =>
    by_cases hc : p c
    · simp [hc, List.filter_cons, ih]
    · simp [hc, List.filter_cons, ih]

/-- A file not among the scanned files contributes no record bearing its
filename to any tag sequence. -/
theorem count_tagSeq_notmem (slugify : String → String)
    (tool : String → Option (List (String × JVal))) (t f : String) :
    ∀ files : List String, f ∉ files →
      ((tagSeq slugify tool t files).filter (fun img => img.filename == f)).length = 0 := by
  intro files
  induction files with
  | nil => intro _; simp [tagSeq]
  | cons g fs ih =>
    intro hf
    have hcontr : tagSeq slugify tool t (g :: fs) =
        ((okKeywords tool g).filter (fun k => k == t)).map (fun _ => okRecord slugify tool g) ++
          tagSeq slugify tool t fs := by
      simp [tagSeq]
    rw [hcontr, List.filter_append, List.length_append]
    have hg : g ≠ f := fun hgf => hf (hgf ▸ List.mem_cons_self _ _)
    have hpc : ((okRecord slugify tool g).filename == f) = false := by
      rw [okRecord_filename]
      exact beq_eq_false_iff_ne.mpr hg
    rw [filter_const_map, if_neg (by simp [hpc])]
    simp only [List.length_nil, Nat.zero_add]
    exact ih (fun hmem => hf (List.mem_cons_of_mem _ hmem))

/-- Over a duplicate-free scan, the number of records bearing a scanned
filename in a tag's sequence equals the number of occurrences of the tag
among that file's keywords. -/
theorem count_tagSeq (slugify : String → String)
    (tool : String → Option (List (String × JVal))) (t f : String) :
    ∀ files : List String, files.Nodup → f ∈ files →
      ((tagSeq slugify tool t files).filter (fun img => img.filename == f)).length =
        ((okKeywords tool f).filter (fun k => k == t)).length := by
  intro files
  induction files with
  | nil => intro _ h; simp at h
  | cons g fs ih =>
    intro hnd hmem
    rw [List.nodup_cons] at hnd
    have hcontr : tagSeq slugify tool t (g :: fs) =
        ((okKeywords tool g).filter (fun k => k == t)).map (fun _ => okRecord slugify tool g) ++
          tagSeq slugify tool t fs := by
      simp [tagSeq]
    rw [hcontr, List.filter_append, List.length_append]
    rcases List.mem_cons.mp hmem with rfl | hmem2
    · have hpc : ((okRecord slugify tool f).filename == f) = true := by
        rw [okRecord_filename]
        exact beq_self_eq_true f
      rw [filter_const_map, if_pos (by simp [hpc]), List.length_map,
        count_tagSeq_notmem slugify tool t f fs hnd.1]
      exact Nat.add_zero _
    · have hg : g ≠ f := fun hgf => hnd.1 (hgf ▸ hmem2)
      have hpc : ((okRecord slugify tool g).filename == f) = false := by
        rw [okRecord_filename]
        exact beq_eq_false_iff_ne.mpr hg
      rw [filter_const_map, if_neg (by simp [hpc])]
      simp only [List.length_nil, Nat.zero_add]
      exact ih hnd.2 hmem2

/-- A record in a tag's sequence that bears a scanned filename is that
file's record. -/
theorem tagSeq_filename_eq (slugify : String → String)
    (tool : String → Option (List (String × JVal))) (t : String)
    (files : List String) (img : ImageData) (f : String)
    (h : img ∈ tagSeq slugify tool t files) (hf : img.filename = f) :
    img = okRecord slugify tool f := by
  obtain ⟨g, _, rfl⟩ := mem_tagSeq slugify tool t files img h
  rw [okRecord_filename] at hf
  rw [hf]

/-- The number of detail pages of a tag bearing a filename equals the
number of records bearing it in the tag's sequence. -/
theorem detail_filter_filename (slugify : String → String) (t : String)
    (imgs : List ImageData) (f : String) :
    ((detailPagesForTag slugify t imgs).filter (fun d => d.filename == f)).length =
      (imgs.filter (fun img => img.filename == f)).length := by
  rw [← List.countP_eq_length_filter, ← List.countP_eq_length_filter,
    detailPagesForTag, List.countP_map]
  have h1 : List.countP ((fun img => img.filename == f) ∘ Prod.snd) imgs.enum =
      List.countP (fun img => img.filename == f) (imgs.enum.map Prod.snd) :=
    (List.countP_map _ _ _).symm
  rw [show ((fun d : DetailPage => d.filename == f) ∘ fun p : Nat × ImageData =>
      ({ output_file := os_path_join OUTPUT_DIR (p.2.slug ++ "-" ++ slugify t ++ ".html")
         filename := p.2.filename
         metadata := p.2.metadata
         prev_slug := if p.1 > 0 then (imgs[p.1 - 1]?).map ImageData.slug else none
         next_slug := if p.1 < imgs.length - 1 then (imgs[p.1 + 1]?).map ImageData.slug else none
         tag_slug := slugify t } : DetailPage)) =
      ((fun img : ImageData => img.filename == f) ∘ Prod.snd) from rfl]
  rw [h1, List.enum_map_snd]

/-- Every detail page of a tag arises from one record of the tag's
sequence, with the positional naming scheme. -/
theorem mem_detailPagesForTag (slugify : String → String) (t : String)
    (imgs : List ImageData) (d : DetailPage)
    (h : d ∈ detailPagesForTag slugify t imgs) :
    ∃ img ∈ imgs, d.filename = img.filename ∧ d.metadata = img.metadata ∧
      d.tag_slug = slugify t ∧
      d.output_file = os_path_join OUTPUT_DIR (img.slug ++ "-" ++ slugify t ++ ".html") := by
  simp only [detailPagesForTag, List.mem_map] at h
  obtain ⟨p, hp, rfl⟩ := h
  have hsnd : p.2 ∈ imgs := by
    have := List.mem_map_of_mem Prod.snd hp
    rwa [List.enum_map_snd] at this
  exact ⟨p.2, hsnd, rfl, rfl, rfl, rfl⟩

/-- Every catalog member yields its index entry. -/
theorem index_entry_of_mem (slugify : String → String) (m : Catalog)
    (t : String) (imgs : List ImageData) (h : (t, imgs) ∈ m) :
    ({ label := t, slug := slugify t, count := imgs.length } : IndexEntry) ∈
      index_tags slugify m := by
  have hmem : (t, imgs) ∈ sorted_items m :=
    (List.perm_insertionSort itemLe m).mem_iff.mpr h
  exact List.mem_map_of_mem _ hmem

/-- C1: for every tag in the catalog and every position p of its ordered
image sequence, the rendered detail page at position p carries prev_slug
equal to the slug at position p-1 (absent at p = 0) and next_slug equal to
the slug at position p+1 (absent at the last position); the computation is
positional within that tag's own sequence, so each tag of a shared image
gets its own pair. -/
theorem detail_prev_next_positional (slugify : String → String) (m : Catalog)
    (t : String) (imgs : List ImageData) (hmem : (t, imgs) ∈ m)
    (p : Nat) (hp : p < imgs.length) :
    ∃ d : DetailPage,
      (detailPagesForTag slugify t imgs)[p]? = some d ∧
      d ∈ render_image_pages_per_tag slugify m ∧
      d.filename = imgs[p].filename ∧
      d.tag_slug = slugify t ∧
      d.prev_slug = (if p = 0 then none else some (imgs[p - 1].slug)) ∧
      d.next_slug = (if h : p = imgs.length - 1 then none
        else some ((imgs.get ⟨p + 1, by omega⟩).slug)) := by
  have hlen : p < imgs.enum.length := by simpa [List.enum_length] using hp
  have h1 : (detailPagesForTag slugify t imgs)[p]? =
      some ({ output_file := os_path_join OUTPUT_DIR (imgs[p].slug ++ "-" ++ slugify t ++ ".html")
              filename := imgs[p].filename
              metadata := imgs[p].metadata
              prev_slug := if p > 0 then (imgs[p - 1]?).map ImageData.slug else none
              next_slug := if p < imgs.length - 1 then (imgs[p + 1]?).map ImageData.slug else none
              tag_slug := slugify t } : DetailPage) := by
    rw [detailPagesForTag, List.getElem?_map, List.getElem?_eq_getElem hlen,
      List.getElem_enum]
    rfl
  refine ⟨_, h1, ?_, rfl, rfl, ?_, ?_⟩
  · apply List.mem_flatMap.mpr
    exact ⟨(t, imgs), hmem, List.getElem?_mem h1⟩
  · by_cases h0 : p = 0
    · subst h0; simp
    · have hpos : p > 0 := Nat.pos_of_ne_zero h0
      have hb : p - 1 < imgs.length := by omega
      simp only [if_pos hpos, if_neg h0, List.getElem?_eq_getElem hb]
      rfl
  · by_cases hlast : p = imgs.length - 1
    · have : ¬ p < imgs.length - 1 := by omega
      simp [hlast, this]
    · have hlt : p < imgs.length - 1 := by omega
      have hb : p + 1 < imgs.length := by omega
      simp only [if_pos hlt, List.getElem?_eq_getElem hb, Option.map_some, dif_neg hlast]
      rfl

/-- C2: on a successful run, each tag's sequence in the catalog is exactly
the records accumulated over the sorted, extension-filtered scan (one per
occurrence of the tag among a file's keywords, in scan order), and its
filenames are in ascending lexicographic order. -/
theorem tag_sequence_scan_order (slugify : String → String)
    (tool : String → Option (List (String × JVal))) (listing : List String)
    (m : Catalog) (h : collect_images slugify tool listing = Except.ok m)
    (t : String) (imgs : List ImageData)
    (hfind : catalogFind m t = some imgs) :
    imgs = tagSeq slugify tool t (scan_files listing) ∧
    List.Sorted pyLe (imgs.map ImageData.filename) := by
  have hchar := collect_images_find slugify tool listing m h t
  rw [hfind] at hchar
  unfold optApp at hchar
  by_cases he : (tagSeq slugify tool t (scan_files listing)).isEmpty
  · rw [if_pos he] at hchar
    cases hchar
  · rw [if_neg he] at hchar
    simp only [Option.getD_none, List.nil_append, Option.some.injEq] at hchar
    refine ⟨hchar, ?_⟩
    rw [hchar]
    exact sorted_tagSeq_filenames slugify tool t _ (sorted_scan_files listing)

/-- C3: the index page context has exactly one entry per catalog tag
(labels are a duplicate-free permutation of the catalog's keys), in
ascending tag-string order regardless of discovery order, each entry
carrying the tag string, its slug, and the length of its image sequence. -/
theorem index_one_sorted_entry_per_tag (slugify : String → String)
    (tool : String → Option (List (String × JVal))) (listing : List String)
    (m : Catalog) (h : collect_images slugify tool listing = Except.ok m) :
    ((index_tags slugify m).map IndexEntry.label).Perm (m.map Prod.fst) ∧
    ((index_tags slugify m).map IndexEntry.label).Nodup ∧
    List.Sorted pyLe ((index_tags slugify m).map IndexEntry.label) ∧
    ∀ e ∈ index_tags slugify m, e.slug = slugify e.label ∧
      ∃ imgs, catalogFind m e.label = some imgs ∧ e.count = imgs.length := by
  have hnd : (m.map Prod.fst).Nodup :=
    collect_go_nodup_keys slugify tool (scan_files listing) [] m h (by simp)
  have hlabels : (index_tags slugify m).map IndexEntry.label =
      (sorted_items m).map Prod.fst := by
    rw [index_tags, List.map_map]
    rfl
  have hperm : ((index_tags slugify m).map IndexEntry.label).Perm (m.map Prod.fst) := by
    rw [hlabels]
    exact List.Perm.map Prod.fst (List.perm_insertionSort itemLe m)
  refine ⟨hperm, hperm.symm.nodup hnd, ?_, ?_⟩
  · rw [hlabels]
    have hsorted : List.Sorted itemLe (sorted_items m) :=
      List.sorted_insertionSort itemLe m
    exact List.pairwise_map.mpr hsorted
  · intro e he
    simp only [index_tags, List.mem_map] at he
    obtain ⟨p, hp, rfl⟩ := he
    refine ⟨rfl, p.2, ?_, rfl⟩
    have hpm : p ∈ m := (List.perm_insertionSort itemLe m).subset hp
    exact catalogFind_of_mem p.1 p.2 m hnd (by simpa using hpm)

/-- C4: the keyword coercion of `get_metadata` implements the
specification's policy (single string becomes a one-element list, a list
is coerced elementwise to strings with nulls dropped, anything else gives
an empty tag list), and a keyword field holding the single string "Travel"
is treated identically to a one-element list holding "Travel". -/
theorem keyword_coercion_policy (tool : String → Option (List (String × JVal)))
    (data : List (String × JVal)) (fp : String) (h : tool fp = some data) :
    (∃ md, get_metadata tool fp =
      Except.ok (md, spec_keyword_coercion (jget data "Keywords"))) ∧
    ∀ path : String,
      get_metadata (fun _ => some [("Keywords", JVal.s "Travel")]) path =
        get_metadata (fun _ => some [("Keywords", JVal.arr [JVal.s "Travel"])]) path := by
  constructor
  · refine ⟨METADATA_FIELDS.filterMap (fun kf =>
      match jget data kf.2 with
      | some v => if truthy v then some (kf.1, v) else none
      | none => none), ?_⟩
    cases hk : jget data "Keywords" with
    | none => simp [get_metadata, h, spec_keyword_coercion, hk]
    | some v => cases v <;> simp [get_metadata, h, spec_keyword_coercion, hk]
  · intro path
    rfl

/-- C5: a directory entry with a qualifying extension whose keyword list
comes back empty contributes to no tag's sequence in the catalog, yet the
copy step still copies it into the output assets directory; and the scan
processes exactly the entries the copy step's identical extension filter
selects (in sorted order). -/
theorem untagged_image_copied_not_listed (slugify : String → String)
    (tool : String → Option (List (String × JVal))) (listing : List String)
    (m : Catalog) (h : collect_images slugify tool listing = Except.ok m)
    (f : String) (hf : f ∈ listing) (hext : isImageFile f = true)
    (hkw : okKeywords tool f = []) :
    (∀ t imgs, catalogFind m t = some imgs → ∀ img ∈ imgs, img.filename ≠ f) ∧
    (os_path_join IMAGES_DIR f,
      os_path_join (os_path_join OUTPUT_DIR "images") f) ∈ copy_images listing ∧
    scan_files listing = List.insertionSort pyLe (listing.filter isImageFile) := by
  refine ⟨?_, ?_, ?_⟩
  · intro t imgs hfind img himg hname
    have hchar := collect_images_find slugify tool listing m h t
    rw [hfind] at hchar
    unfold optApp at hchar
    by_cases he : (tagSeq slugify tool t (scan_files listing)).isEmpty
    · rw [if_pos he] at hchar; cases hchar
    · rw [if_neg he] at hchar
      simp only [Option.getD_none, List.nil_append, Option.some.injEq] at hchar
      subst hchar
      simp only [tagSeq, List.mem_flatMap] at himg
      obtain ⟨g, hg, hmem2⟩ := himg
      simp only [List.mem_map] at hmem2
      obtain ⟨k, hk, heq⟩ := hmem2
      rw [← heq, okRecord_filename] at hname
      subst hname
      rw [hkw] at hk
      simp at hk
  · exact List.mem_map_of_mem _ (List.mem_filter.mpr ⟨hf, hext⟩)
  · have hp1 : (scan_files listing).Perm (listing.filter isImageFile) :=
      List.Perm.filter isImageFile (List.perm_insertionSort pyLe listing)
    have hp2 : (List.insertionSort pyLe (listing.filter isImageFile)).Perm
        (listing.filter isImageFile) :=
      List.perm_insertionSort pyLe (listing.filter isImageFile)
    exact List.eq_of_perm_of_sorted (hp1.trans hp2.symm)
      (sorted_scan_files listing)
      (List.sorted_insertionSort pyLe (listing.filter isImageFile))

/-- Joining a component under the output directory prefixes it with
`output/`. -/
theorem os_path_join_output (s : String) :
    os_path_join OUTPUT_DIR s = "output/" ++ s := rfl

/-- Joining a filename under the copied-assets directory prefixes it with
`output/images/`. -/
theorem os_path_join_output_images (s : String) :
    os_path_join (os_path_join OUTPUT_DIR "images") s = "output/images/" ++ s := rfl

/-- Joining a filename under the thumbnails directory prefixes it with
`output/thumbs/`. -/
theorem os_path_join_output_thumbs (s : String) :
    os_path_join (os_path_join OUTPUT_DIR "thumbs") s = "output/thumbs/" ++ s := rfl

/-- C6: the output files are exactly `index.html`, `{tag_slug}.html` per
tag, `{image_slug}-{tag_slug}.html` per (image, tag) pair, and
`images/{filename}` (resp. `thumbs/{filename}`) per copied original, all
under the output directory. -/
theorem output_naming_scheme (slugify : String → String) (m : Catalog)
    (listing : List String) :
    (render_index_page slugify m).1 = "output/index.html" ∧
    (∀ tp ∈ render_tag_pages slugify m, ∃ p ∈ m,
        tp.output_file = "output/" ++ slugify p.1 ++ ".html") ∧
    (∀ d ∈ render_image_pages_per_tag slugify m, ∃ p ∈ m, ∃ img ∈ p.2,
        d.output_file = "output/" ++ img.slug ++ "-" ++ slugify p.1 ++ ".html") ∧
    (∀ c ∈ copy_images listing, ∃ f ∈ listing, isImageFile f = true ∧
        c.2 = "output/images/" ++ f) ∧
    (∀ c ∈ generate_thumbnails listing, ∃ f ∈ listing, isImageFile f = true ∧
        c.2 = "output/thumbs/" ++ f) := by
  refine ⟨rfl, ?_, ?_, ?_, ?_⟩
  · intro tp htp
    simp only [render_tag_pages, List.mem_map] at htp
    obtain ⟨p, hp, rfl⟩ := htp
    refine ⟨p, hp, ?_⟩
    rw [os_path_join_output]
    simp [String.append_assoc]
  · intro d hd
    simp only [render_image_pages_per_tag, List.mem_flatMap] at hd
    obtain ⟨p, hp, hdp⟩ := hd
    obtain ⟨img, himg, _, _, _, hout⟩ := mem_detailPagesForTag slugify p.1 p.2 d hdp
    refine ⟨p, hp, img, himg, ?_⟩
    rw [hout, os_path_join_output]
    simp [String.append_assoc]
  · intro c hc
    simp only [copy_images, List.mem_map] at hc
    obtain ⟨f, hf, rfl⟩ := hc
    rw [List.mem_filter] at hf
    exact ⟨f, hf.1, hf.2, os_path_join_output_images f⟩
  · intro c hc
    simp only [generate_thumbnails, List.mem_map] at hc
    obtain ⟨f, hf, rfl⟩ := hc
    rw [List.mem_filter] at hf
    exact ⟨f, hf.1, hf.2, os_path_join_output_thumbs f⟩

/-- C7: two runs over the same directory contents (the listing in any
order) and the same tool responses produce the same catalog, and hence
identical index, tag-listing and detail-page outputs. -/
theorem rerun_byte_identical (slugify : String → String)
    (tool : String → Option (List (String × JVal)))
    (listing1 listing2 : List String) (hperm : listing1.Perm listing2) :
    scan_files listing1 = scan_files listing2 ∧
    collect_images slugify tool listing1 = collect_images slugify tool listing2 ∧
    ∀ m1 m2 : Catalog,
      collect_images slugify tool listing1 = Except.ok m1 →
      collect_images slugify tool listing2 = Except.ok m2 →
      render_index_page slugify m1 = render_index_page slugify m2 ∧
      render_tag_pages slugify m1 = render_tag_pages slugify m2 ∧
      render_image_pages_per_tag slugify m1 = render_image_pages_per_tag slugify m2 := by
  have hsort : List.insertionSort pyLe listing1 = List.insertionSort pyLe listing2 := by
    have h1 : (List.insertionSort pyLe listing1).Perm (List.insertionSort pyLe listing2) :=
      (List.perm_insertionSort pyLe listing1).trans
        (hperm.trans (List.perm_insertionSort pyLe listing2).symm)
    exact List.eq_of_perm_of_sorted h1 (List.sorted_insertionSort pyLe listing1)
      (List.sorted_insertionSort pyLe listing2)
  have hscan : scan_files listing1 = scan_files listing2 := by
    unfold scan_files
    rw [hsort]
  have hcoll : collect_images slugify tool listing1 =
      collect_images slugify tool listing2 := by
    unfold collect_images
    rw [hscan]
  refine ⟨hscan, hcoll, ?_⟩
  intro m1 m2 h1 h2
  rw [h1, h2] at hcoll
  injection hcoll with hm
  subst hm
  exact ⟨rfl, rfl, rfl⟩

/-- When the metadata tool's output for a file in the processed list is
unparseable, the grouping loop aborts with the propagated error. -/
theorem collect_go_error (slugify : String → String)
    (tool : String → Option (List (String × JVal))) (f : String)
    (hfail : tool (os_path_join IMAGES_DIR f) = none) :
    ∀ (files : List String) (acc : Catalog), f ∈ files →
      collect_go slugify tool acc files = Except.error () := by
  intro files
  induction files with
  | nil => intro acc h; simp at h
  | cons g fs ih =>
    intro acc hmem
    simp only [collect_go]
    cases hgm : get_metadata tool (os_path_join IMAGES_DIR g) with
    | error e => rfl
    | ok md =>
      obtain ⟨metadata, keywords⟩ := md
      rcases List.mem_cons.mp hmem with rfl | hmem2
      · simp [get_metadata, hfail] at hgm
      · exact ih _ hmem2

/-- C8: if the metadata tool fails to produce parseable output for any
scanned file, the whole catalog construction aborts with an error; it is
never absorbed into a partial catalog. -/
theorem unparseable_metadata_aborts (slugify : String → String)
    (tool : String → Option (List (String × JVal))) (listing : List String)
    (f : String) (hf : f ∈ scan_files listing)
    (hfail : tool (os_path_join IMAGES_DIR f) = none) :
    collect_images slugify tool listing = Except.error () :=
  collect_go_error slugify tool f hfail (scan_files listing) [] hf

/-- C9: when one image's keyword list names the same tag k times, the
tag's sequence holds that image's record once per occurrence (no
deduplication): the records bearing the filename number k, each is the
file's record, the tag's detail pages bearing the filename number k and
all share one output path, and the index entry counts the sequence length
with those multiplicities. -/
theorem duplicate_keyword_repeats (slugify : String → String)
    (tool : String → Option (List (String × JVal))) (listing : List String)
    (m : Catalog) (t f : String)
    (h : collect_images slugify tool listing = Except.ok m)
    (hnd : listing.Nodup) (hf : f ∈ listing) (hext : isImageFile f = true)
    (k : Nat) (hk : k = ((okKeywords tool f).filter (fun kw => kw == t)).length)
    (hk1 : 1 ≤ k) :
    ∃ imgs, catalogFind m t = some imgs ∧
      (imgs.filter (fun img => img.filename == f)).length = k ∧
      (∀ img ∈ imgs, img.filename = f → img = okRecord slugify tool f) ∧
      ((detailPagesForTag slugify t imgs).filter (fun d => d.filename == f)).length = k ∧
      (∀ d ∈ detailPagesForTag slugify t imgs, d.filename = f →
        d.output_file = os_path_join OUTPUT_DIR
          ((okRecord slugify tool f).slug ++ "-" ++ slugify t ++ ".html")) ∧
      ({ label := t, slug := slugify t, count := imgs.length } : IndexEntry) ∈
        index_tags slugify m ∧
      k ≤ imgs.length := by
  have hscan : f ∈ scan_files listing := (mem_scan_files listing f).mpr ⟨hf, hext⟩
  have hndscan := nodup_scan_files listing hnd
  have hcount : ((tagSeq slugify tool t (scan_files listing)).filter
      (fun img => img.filename == f)).length =
      ((okKeywords tool f).filter (fun kw => kw == t)).length :=
    count_tagSeq slugify tool t f _ hndscan hscan
  have hne : ¬ (tagSeq slugify tool t (scan_files listing)).isEmpty = true := by
    intro he
    rw [List.isEmpty_iff] at he
    rw [he] at hcount
    simp only [List.filter_nil, List.length_nil] at hcount
    omega
  have hfind : catalogFind m t = some (tagSeq slugify tool t (scan_files listing)) := by
    rw [collect_images_find slugify tool listing m h t]
    unfold optApp
    rw [if_neg hne]
    simp
  refine ⟨tagSeq slugify tool t (scan_files listing), hfind, ?_, ?_, ?_, ?_, ?_, ?_⟩
  · rw [hcount, hk]
  · intro img himg hname
    exact tagSeq_filename_eq slugify tool t _ img f himg hname
  · rw [detail_filter_filename, hcount, hk]
  · intro d hd hdname
    obtain ⟨img, himg, hfn, _, _, hout⟩ :=
      mem_detailPagesForTag slugify t (tagSeq slugify tool t (scan_files listing)) d hd
    have himgf : img = okRecord slugify tool f :=
      tagSeq_filename_eq slugify tool t _ img f himg (by rw [← hfn, hdname])
    rw [hout, himgf]
  · exact index_entry_of_mem slugify m t _ (mem_of_catalogFind t _ m hfind)
  · rw [hk, ← hcount]
    exact List.length_filter_le _ _

/-- C10: every tag key of a successfully built catalog owns a non-empty
image sequence, so every index entry has count at least one. -/
theorem tags_have_images (slugify : String → String)
    (tool : String → Option (List (String × JVal))) (listing : List String)
    (m : Catalog) (h : collect_images slugify tool listing = Except.ok m) :
    (∀ p ∈ m, p.2 ≠ []) ∧
    (∀ t imgs, catalogFind m t = some imgs → imgs ≠ []) ∧
    (∀ e ∈ index_tags slugify m, 1 ≤ e.count) := by
  have hval : ∀ p ∈ m, p.2 ≠ [] :=
    collect_go_nonempty_values slugify tool (scan_files listing) [] m h (by simp)
  refine ⟨hval, ?_, ?_⟩
  · intro t imgs hfind
    exact hval (t, imgs) (mem_of_catalogFind t imgs m hfind)
  · intro e he
    simp only [index_tags, List.mem_map] at he
    obtain ⟨p, hp, rfl⟩ := he
    have hpm : p ∈ m := (List.perm_insertionSort itemLe m).subset hp
    have hne := hval p hpm
    show 1 ≤ p.2.length
    have hlen : p.2.length ≠ 0 := fun h0 => hne (List.length_eq_zero.mp h0)
    omega

/-- Witness: in the example catalog, tag X holds a.jpg then b.jpg, and the
detail page at position 1 of X points back to slug a with no next slug. -/
theorem detail_prev_next_positional_witness :
    ("X", [demoA, demoB]) ∈ demoCatalog ∧ 1 < [demoA, demoB].length ∧
    ∃ d : DetailPage,
      (detailPagesForTag id "X" [demoA, demoB])[1]? = some d ∧
      d ∈ render_image_pages_per_tag id demoCatalog ∧
      d.prev_slug = some "a" ∧ d.next_slug = none := by
  have hmem : ("X", [demoA, demoB]) ∈ demoCatalog := List.mem_cons_self _ _
  obtain ⟨d, h1, h2, _, _, hprev, hnext⟩ :=
    detail_prev_next_positional id demoCatalog "X" [demoA, demoB] hmem 1 (by decide)
  refine ⟨hmem, by decide, d, h1, h2, ?_, ?_⟩
  · rw [hprev]; rfl
  · rw [hnext]; rfl

/-- Witness: the example run groups tag Y's sequence as exactly the
accumulated scan contribution, with sorted filenames. -/
theorem tag_sequence_scan_order_witness :
    collect_images id demoTool demoListing = Except.ok demoCatalog ∧
    [demoA] = tagSeq id demoTool "Y" (scan_files demoListing) ∧
    List.Sorted pyLe ([demoA].map ImageData.filename) := by
  obtain ⟨h1, h2⟩ :=
    tag_sequence_scan_order id demoTool demoListing demoCatalog rfl "Y" [demoA] rfl
  exact ⟨rfl, h1, h2⟩

/-- Witness: the example index lists each of X and Y once, in ascending
order. -/
theorem index_one_sorted_entry_per_tag_witness :
    ((index_tags id demoCatalog).map IndexEntry.label).Perm (demoCatalog.map Prod.fst) ∧
    ((index_tags id demoCatalog).map IndexEntry.label).Nodup ∧
    List.Sorted pyLe ((index_tags id demoCatalog).map IndexEntry.label) := by
  obtain ⟨h1, h2, h3, _⟩ :=
    index_one_sorted_entry_per_tag id demoTool demoListing demoCatalog rfl
  exact ⟨h1, h2, h3⟩

/-- Witness: on b.jpg's metadata object the coercion applies, and the
single-string and one-element-list forms of "Travel" agree. -/
theorem keyword_coercion_policy_witness :
    (∃ md, get_metadata demoTool "images/b.jpg" =
      Except.ok (md, spec_keyword_coercion (jget [("Keywords", JVal.s "X")] "Keywords"))) ∧
    get_metadata (fun _ => some [("Keywords", JVal.s "Travel")]) "images/t.jpg" =
      get_metadata (fun _ => some [("Keywords", JVal.arr [JVal.s "Travel"])]) "images/t.jpg" := by
  obtain ⟨h1, h2⟩ :=
    keyword_coercion_policy demoTool [("Keywords", JVal.s "X")] "images/b.jpg" rfl
  exact ⟨h1, h2 "images/t.jpg"⟩

/-- Witness: plain.png carries no keywords, is absent from tag X's
sequence, and is still copied into the output assets directory. -/
theorem untagged_image_copied_not_listed_witness :
    okKeywords demoTool "plain.png" = [] ∧
    demoA.filename ≠ "plain.png" ∧
    (os_path_join IMAGES_DIR "plain.png",
      os_path_join (os_path_join OUTPUT_DIR "images") "plain.png") ∈
      copy_images demoListing := by
  obtain ⟨h1, h2, _⟩ := untagged_image_copied_not_listed id demoTool demoListing
    demoCatalog rfl "plain.png" (by simp [demoListing]) rfl rfl
  exact ⟨rfl, h1 "X" [demoA, demoB] rfl demoA (List.mem_cons_self _ _), h2⟩

/-- Witness: the naming scheme holds on the example catalog and listing. -/
theorem output_naming_scheme_witness :
    (render_index_page id demoCatalog).1 = "output/index.html" ∧
    ∀ tp ∈ render_tag_pages id demoCatalog, ∃ p ∈ demoCatalog,
      tp.output_file = "output/" ++ id p.1 ++ ".html" := by
  obtain ⟨h1, h2, _⟩ := output_naming_scheme id demoCatalog demoListing
  exact ⟨h1, h2⟩

/-- Witness: listing the example directory in a different order produces
the same scan, catalog and page plans. -/
theorem rerun_byte_identical_witness :
    demoListing.Perm ["notes.txt", "b.jpg", "plain.png", "a.jpg"] ∧
    collect_images id demoTool demoListing =
      collect_images id demoTool ["notes.txt", "b.jpg", "plain.png", "a.jpg"] := by
  have hperm : demoListing.Perm ["notes.txt", "b.jpg", "plain.png", "a.jpg"] :=
    List.Perm.swap "notes.txt" "b.jpg" ["plain.png", "a.jpg"]
  exact ⟨hperm, (rerun_byte_identical id demoTool demoListing _ hperm).2.1⟩

/-- Witness: a scanned file with unparseable metadata aborts the run. -/
theorem unparseable_metadata_aborts_witness :
    "bad.jpg" ∈ scan_files ["bad.jpg"] ∧
    collect_images id demoTool ["bad.jpg"] = Except.error () := by
  have hf : "bad.jpg" ∈ scan_files ["bad.jpg"] := by decide
  exact ⟨hf, unparseable_metadata_aborts id demoTool ["bad.jpg"] "bad.jpg" hf rfl⟩

/-- Witness: c.jpg lists tag X twice, so X's sequence and X's detail pages
each hold c.jpg twice. -/
theorem duplicate_keyword_repeats_witness :
    ∃ imgs, catalogFind [("X", [demoC, demoC])] "X" = some imgs ∧
      (imgs.filter (fun img => img.filename == "c.jpg")).length = 2 ∧
      ((detailPagesForTag id "X" imgs).filter
        (fun d => d.filename == "c.jpg")).length = 2 ∧
      2 ≤ imgs.length := by
  obtain ⟨imgs, h1, h2, _, h4, _, _, h7⟩ :=
    duplicate_keyword_repeats id dupTool dupListing [("X", [demoC, demoC])] "X" "c.jpg"
      rfl (by simp [dupListing]) (by simp [dupListing]) rfl 2 rfl (by omega)
  exact ⟨imgs, h1, h2, h4, h7⟩

/-- Witness: in the example catalog every tag's sequence is non-empty. -/
theorem tags_have_images_witness :
    collect_images id demoTool demoListing = Except.ok demoCatalog ∧
    [demoA] ≠ ([] : List ImageData) := by
  refine ⟨rfl, ?_⟩
  exact (tags_have_images id demoTool demoListing demoCatalog rfl).2.1 "Y" [demoA] rfl
